import Mathlib

set_option autoImplicit false
set_option maxHeartbeats 1000000

/-!
Shallow embedding of `logtailer.py` (class `LogTailer`).

Text content is modelled as `List Char`: one element stands for one decoded
character of a text-mode file, and the line boundary is the LF character,
matching the source's `CR = '\n'` in `tail` and the line splitting performed
by text-mode `readlines`.  Fallible OS observations (`os.stat`, `open`) are
modelled as `Option`-valued lookups in an explicit `Disk` value; an absent
entry stands for the ENOENT outcome that the source catches.
-/

/-- Python `str.splitlines` restricted to the LF boundary (the model's only
line terminator): `cur` holds the characters of the current line, reversed. -/
def splitlinesAux : List Char → List Char → List (List Char)
  | [], cur => if cur = [] then [] else [cur.reverse]
  | c :: rest, cur =>
    if c = '\n' then cur.reverse :: splitlinesAux rest []
    else splitlinesAux rest (c :: cur)

/-- Python `data.splitlines()` (terminators stripped, no trailing empty line). -/
def splitlines (s : List Char) : List (List Char) := splitlinesAux s []

/-- Line splitting that keeps the trailing LF on each line, matching the
text-mode `readline` iteration that `IOBase.readlines` performs; the final
line is unterminated when the text does not end with LF. -/
def linesKeepEndsAux : List Char → List Char → List (List Char)
  | [], cur => if cur = [] then [] else [cur.reverse]
  | c :: rest, cur =>
    if c = '\n' then (cur.reverse ++ ['\n']) :: linesKeepEndsAux rest []
    else linesKeepEndsAux rest (c :: cur)

/-- All lines of `s`, terminators kept. -/
def linesKeepEnds (s : List Char) : List (List Char) := linesKeepEndsAux s []

/-- Concatenation of a list of lists (used to state delivery-completeness). -/
def concatAll {α : Type} : List (List α) → List α := fun ls => ls.foldr (· ++ ·) []

/-- Python `data.count('\n')`. -/
def countNL (s : List Char) : Nat := s.count '\n'

/-- Python list slice `xs[-w:]` for a nonnegative `w`.  Note that `xs[-0:]`
is `xs[0:]`, the whole list. -/
def pyLastSlice {α : Type} (xs : List α) (w : Nat) : List α :=
  if w = 0 then xs else xs.drop (xs.length - w)

/-- `IOBase.readlines` accumulation: collect lines until the running total of
line lengths reaches the (positive) hint; the line that reaches the hint is
still included. -/
def takeHint : Nat → List (List Char) → List (List Char)
  | _, [] => []
  | hint, l :: ls => if hint ≤ l.length then [l] else l :: takeHint (hint - l.length) ls

/-- `file.readlines(hint)` on a text handle whose content is `content` and
whose position is `pos`: returns the lines read (terminators kept) and the
new position.  A hint of `0` is Python's falsy hint: read everything. -/
def readlines (content : List Char) (pos hint : Nat) : List (List Char) × Nat :=
  let ls := if hint = 0 then linesKeepEnds (content.drop pos)
            else takeHint hint (linesKeepEnds (content.drop pos))
  (ls, pos + (concatAll ls).length)

/-- The backward block scan of `LogTailer.tail` (lines 118-137 of the
source).  `blockAbs` is the absolute value of the Python `block` variable,
so the scan starts at `blockAbs = 1` with empty accumulated `data`.  The
branch on `content.length ≤ 1024 * blockAbs` is the source's
`abs(step) >= fsize` exit branch, which reads the remaining
`BUFSIZ - (abs(step) - fsize)` leading characters; the other branch reads
one full block of 1024 characters ending where the previous block began. -/
def tailLoop (content : List Char) (window : Nat) (blockAbs : Nat) (data : List Char) :
    List Char :=
  if content.length ≤ 1024 * blockAbs then
    content.take (1024 - (1024 * blockAbs - content.length)) ++ data
  else
    if window ≤ countNL ((content.drop (content.length - 1024 * blockAbs)).take 1024 ++ data) then
      (content.drop (content.length - 1024 * blockAbs)).take 1024 ++ data
    else
      tailLoop content window (blockAbs + 1)
        ((content.drop (content.length - 1024 * blockAbs)).take 1024 ++ data)
termination_by content.length - 1024 * blockAbs
decreasing_by omega

/-- The accumulated buffer held by `tail` when its scan loop ends. -/
def tailData (content : List Char) (window : Nat) : List Char := tailLoop content window 1 []

/-- The line list `tail` returns for a nonnegative window:
`data.splitlines()[-window:]`. -/
def tailLinesFor (content : List Char) (window : Nat) : List (List Char) :=
  pyLastSlice (splitlines (tailData content window)) window

/-- `LogTailer.tail(fname, encoding, window)` on a file whose decoded content
is `content`; a negative window raises `ValueError` before the file is even
opened. -/
def pythonTail (content : List Char) (window : Int) : Except String (List (List Char)) :=
  if window < 0 then Except.error "invalid window value"
  else Except.ok (tailLinesFor content window.toNat)

/-- Fuelled base-16 digit accumulation; `toHex` supplies sufficient fuel. -/
def toHexAux : Nat → Nat → List Char → List Char
  | 0, _, acc => acc
  | fuel + 1, n, acc =>
    if n < 16 then Nat.digitChar n :: acc
    else toHexAux fuel (n / 16) (Nat.digitChar (n % 16) :: acc)

/-- Python `'%x' % n` for a nonnegative `n`: lowercase hex digits, no leading
zeros, and `"0"` for zero. -/
def toHex (n : Nat) : List Char := toHexAux (n + 1) n []

/-- The fields of an `os.stat` result that the source consults: `st_dev`,
`st_ino`, and whether `S_ISREG` holds of `st_mode`.  The windows fallback of
`get_file_id` (formatting `st_ctime`, a float) is outside this posix model. -/
structure Stat where
  dev : Nat
  ino : Nat
  isReg : Bool
deriving DecidableEq

/-- File identities are the strings produced by `get_file_id`, as character
lists. -/
abbrev FileId := List Char

abbrev FPath := String

/-- `LogTailer.get_file_id` on posix: `'%xg%x' % (st.st_dev, st.st_ino)`. -/
def get_file_id (st : Stat) : FileId := toHex st.dev ++ 'g' :: toHex st.ino

/-! ### Support lemmas for the incremental reader -/

theorem concatAll_append {α : Type} (a b : List (List α)) :
    concatAll (a ++ b) = concatAll a ++ concatAll b := by
  induction a with
  | nil => simp [concatAll]
  | cons x xs ih => simp [concatAll] at ih ⊢; simp [ih]

theorem concatAll_linesKeepEndsAux (s : List Char) :
    ∀ cur, concatAll (linesKeepEndsAux s cur) = cur.reverse ++ s := by
  induction s with
  | nil =>
    intro cur
    by_cases h : cur = [] <;> simp [linesKeepEndsAux, h, concatAll]
  | cons c rest ih =>
    intro cur
    by_cases h : c = '\n'
    · subst h
      simp [linesKeepEndsAux, concatAll] at ih ⊢
      simp [ih]
    · simp only [linesKeepEndsAux, if_neg h]
      rw [ih (c :: cur)]
      simp

theorem concatAll_linesKeepEnds (s : List Char) : concatAll (linesKeepEnds s) = s := by
  simpa using concatAll_linesKeepEndsAux s []

theorem linesKeepEndsAux_mem_ne_nil (s : List Char) :
    ∀ cur l, l ∈ linesKeepEndsAux s cur → l ≠ [] := by
  induction s with
  | nil =>
    intro cur l hl
    by_cases h : cur = [] <;> simp [linesKeepEndsAux, h] at hl
    subst hl
    simpa using h
  | cons c rest ih =>
    intro cur l hl
    by_cases h : c = '\n'
    · subst h
      simp [linesKeepEndsAux] at hl
      rcases hl with hl | hl
      · subst hl; simp
      · exact ih [] l hl
    · simp [linesKeepEndsAux, h] at hl
      exact ih (c :: cur) l hl

theorem linesKeepEnds_nil_iff (s : List Char) : linesKeepEnds s = [] ↔ s = [] := by
  constructor
  · intro h
    have := concatAll_linesKeepEnds s
    rw [h] at this
    simpa [concatAll] using this.symm
  · intro h; subst h; simp [linesKeepEnds, linesKeepEndsAux]

theorem takeHint_prefix (hint : Nat) (ls : List (List Char)) :
    ∃ r, takeHint hint ls ++ r = ls := by
  induction ls generalizing hint with
  | nil => exact ⟨[], rfl⟩
  | cons l ls ih =>
    by_cases h : hint ≤ l.length
    · exact ⟨ls, by simp [takeHint, h]⟩
    · obtain ⟨r, hr⟩ := ih (hint - l.length)
      exact ⟨r, by simp [takeHint, h, hr]⟩

theorem takeHint_nil_iff (hint : Nat) (ls : List (List Char)) :
    takeHint hint ls = [] ↔ ls = [] := by
  cases ls with
  | nil => simp [takeHint]
  | cons l ls =>
    constructor
    · intro h
      by_cases hh : hint ≤ l.length <;> simp [takeHint, hh] at h
    · intro h; cases h

/-- The lines returned by `readlines` are exactly a prefix of the unread
region of the file, so they are delivered verbatim (terminators included). -/
theorem readlines_concat_prefix (content : List Char) (pos hint : Nat) :
    ∃ r, concatAll ((readlines content pos hint).1) ++ r = content.drop pos := by
  by_cases h : hint = 0
  · exact ⟨[], by simp [readlines, h, concatAll_linesKeepEnds]⟩
  · obtain ⟨r, hr⟩ := takeHint_prefix hint (linesKeepEnds (content.drop pos))
    refine ⟨concatAll r, ?_⟩
    have := concatAll_linesKeepEnds (content.drop pos)
    rw [← this, ← hr, concatAll_append]
    simp [readlines, h]

theorem readlines_pos_le (content : List Char) (pos hint : Nat) :
    (readlines content pos hint).2 ≤ max pos content.length := by
  obtain ⟨r, hr⟩ := readlines_concat_prefix content pos hint
  have hlen : (concatAll ((readlines content pos hint).1)).length ≤ (content.drop pos).length := by
    rw [← hr]; simp
  have h2 : (readlines content pos hint).2 = pos + (concatAll ((readlines content pos hint).1)).length := by
    simp [readlines]
  rw [h2]
  simp [List.length_drop] at hlen
  omega

theorem readlines_mem_ne_nil (content : List Char) (pos hint : Nat) :
    ∀ l ∈ (readlines content pos hint).1, l ≠ [] := by
  intro l hl
  by_cases h : hint = 0
  · simp [readlines, h] at hl
    exact linesKeepEndsAux_mem_ne_nil _ _ _ hl
  · simp [readlines, h] at hl
    obtain ⟨r, hr⟩ := takeHint_prefix hint (linesKeepEnds (content.drop pos))
    have : l ∈ linesKeepEnds (content.drop pos) := by
      rw [← hr]; exact List.mem_append_left _ hl
    exact linesKeepEndsAux_mem_ne_nil _ _ _ this

theorem readlines_advance (content : List Char) (pos hint : Nat)
    (h : (readlines content pos hint).1 ≠ []) :
    pos < (readlines content pos hint).2 ∧ pos < content.length := by
  rcases hls : (readlines content pos hint).1 with _ | ⟨l, ls⟩
  · exact absurd hls h
  have hlne : l ≠ [] := readlines_mem_ne_nil content pos hint l (by rw [hls]; simp)
  have h2 : (readlines content pos hint).2 = pos + (concatAll ((readlines content pos hint).1)).length := by
    simp [readlines]
  have hdrop : content.drop pos ≠ [] := by
    intro hd
    by_cases hh : hint = 0
    · simp [readlines, hh, hd, linesKeepEnds, linesKeepEndsAux] at hls
    · simp [readlines, hh, hd, linesKeepEnds, linesKeepEndsAux, takeHint] at hls
  constructor
  · rw [h2, hls]
    have : 0 < l.length := List.length_pos.mpr hlne
    simp [concatAll]
    omega
  · by_contra hcon
    push_neg at hcon
    exact hdrop (List.drop_eq_nil_of_le hcon)

/-- `LogTailer.readLines`: repeated `readlines` calls until one returns no
lines, collecting the callback batches; returns the batches (in delivery
order) and the final handle position. -/
def readLinesBatches (content : List Char) (pos hint : Nat) :
    List (List (List Char)) × Nat :=
  match hE : readlines content pos hint with
  | ([], _) => ([], pos)
  | (l :: ls, pos2) =>
    ((l :: ls) :: (readLinesBatches content pos2 hint).1,
     (readLinesBatches content pos2 hint).2)
termination_by content.length - pos
decreasing_by
  have := readlines_advance content pos hint (by rw [hE]; simp)
  rw [hE] at this
  omega

theorem readlines_nil_iff (content : List Char) (pos hint : Nat) :
    (readlines content pos hint).1 = [] ↔ content.drop pos = [] := by
  by_cases h : hint = 0 <;> simp [readlines, h, takeHint_nil_iff, linesKeepEnds_nil_iff]

theorem rlb_nil {content : List Char} {pos hint : Nat}
    (h : (readlines content pos hint).1 = []) :
    readLinesBatches content pos hint = ([], pos) := by
  rw [readLinesBatches.eq_def]
  split
  · rfl
  · rename_i l ls pos2 hE
    rw [hE] at h
    simp at h

theorem rlb_cons {content : List Char} {pos hint : Nat} {l : List Char}
    {ls : List (List Char)} {pos2 : Nat}
    (h : readlines content pos hint = (l :: ls, pos2)) :
    readLinesBatches content pos hint =
      ((l :: ls) :: (readLinesBatches content pos2 hint).1,
       (readLinesBatches content pos2 hint).2) := by
  rw [readLinesBatches.eq_def]
  split
  · rename_i p2 hE
    rw [hE] at h
    simp at h
  · rename_i l2 ls2 p2 hE
    rw [hE] at h
    injection h with h1 h2
    injection h1 with h3 h4
    subst h2; subst h3; subst h4
    rfl

theorem rlb_spec_aux (content : List Char) (hint : Nat) :
    ∀ n pos, content.length - pos ≤ n →
      concatAll (((readLinesBatches content pos hint).1).map concatAll) = content.drop pos ∧
      (readLinesBatches content pos hint).2 = max pos content.length := by
  intro n
  induction n with
  | zero =>
    intro pos hn
    have hge : content.length ≤ pos := by omega
    have hd : content.drop pos = [] := List.drop_eq_nil_of_le hge
    rw [rlb_nil ((readlines_nil_iff content pos hint).mpr hd)]
    constructor
    · simpa [concatAll] using hd.symm
    · simp; omega
  | succ n ih =>
    intro pos hn
    rcases hE : readlines content pos hint with ⟨ls, pos2⟩
    cases ls with
    | nil =>
      have hd : content.drop pos = [] := (readlines_nil_iff content pos hint).mp (by rw [hE])
      rw [rlb_nil (by rw [hE])]
      have hge : content.length ≤ pos := by
        by_contra hcon
        push_neg at hcon
        have : content.drop pos ≠ [] := by
          intro hx
          have := congrArg List.length hx
          simp [List.length_drop] at this
          omega
        exact this hd
      constructor
      · simpa [concatAll] using hd.symm
      · simp; omega
    | cons l ls2 =>
      have hadv := readlines_advance content pos hint (by rw [hE]; simp)
      rw [hE] at hadv
      have hle := readlines_pos_le content pos hint
      rw [hE] at hle
      simp at hadv hle
      have ihp := ih pos2 (by omega)
      obtain ⟨r, hr⟩ := readlines_concat_prefix content pos hint
      rw [hE] at hr
      have hpos2 : pos2 = pos + (concatAll (l :: ls2)).length := by
        have h2 : (readlines content pos hint).2 =
            pos + (concatAll ((readlines content pos hint).1)).length := by
          simp [readlines]
        rw [hE] at h2
        simpa using h2
      have hdrop2 : content.drop pos2 = r := by
        rw [hpos2, ← List.drop_drop, ← hr]
        exact List.drop_left _ _
      rw [rlb_cons hE]
      constructor
      · have hcons : concatAll (((l :: ls2) :: (readLinesBatches content pos2 hint).1).map concatAll) =
            concatAll (l :: ls2) ++ concatAll (((readLinesBatches content pos2 hint).1).map concatAll) := by
          simp [concatAll]
        rw [hcons, ihp.1, hdrop2, hr]
      · rw [ihp.2]
        omega

/-- Delivery completeness (used by several claims): the batches that
`readLines` delivers concatenate to exactly the unread region of the file,
and the final position is end-of-file (or the unchanged position if the
cursor was already past the end). -/
theorem rlb_drain (content : List Char) (pos hint : Nat) :
    concatAll (((readLinesBatches content pos hint).1).map concatAll) = content.drop pos :=
  (rlb_spec_aux content hint content.length pos (by omega)).1

theorem rlb_final_pos (content : List Char) (pos hint : Nat) :
    (readLinesBatches content pos hint).2 = max pos content.length :=
  (rlb_spec_aux content hint content.length pos (by omega)).2

theorem rlb_batches_ne_nil_aux (content : List Char) (hint : Nat) :
    ∀ n pos, content.length - pos ≤ n →
      ∀ b ∈ (readLinesBatches content pos hint).1, b ≠ [] := by
  intro n
  induction n with
  | zero =>
    intro pos hn b hb
    have hge : content.length ≤ pos := by omega
    rw [rlb_nil ((readlines_nil_iff content pos hint).mpr (List.drop_eq_nil_of_le hge))] at hb
    simp at hb
  | succ n ih =>
    intro pos hn b hb
    rcases hE : readlines content pos hint with ⟨ls, pos2⟩
    cases ls with
    | nil =>
      rw [rlb_nil (by rw [hE])] at hb
      simp at hb
    | cons l ls2 =>
      have hadv := readlines_advance content pos hint (by rw [hE]; simp)
      rw [hE] at hadv
      simp at hadv
      rw [rlb_cons hE] at hb
      simp at hb
      rcases hb with hb | hb
      · subst hb; simp
      · exact ih pos2 (by omega) b hb

/-! ### The watch engine -/

/-- An open text read handle: the path it was opened under, the content of
the physical file it refers to (fixed for the duration of one tick), and its
read position. -/
structure Handle where
  name : FPath
  content : List Char
  pos : Nat
deriving DecidableEq

/-- One physical file: its stat metadata and decoded content. -/
structure DiskFile where
  stat : Stat
  content : List Char
deriving DecidableEq

/-- The directory as observed during one tick: the association of each path
in the watched folder to the physical file it currently refers to. -/
structure Disk where
  files : List (FPath × DiskFile)
deriving DecidableEq

/-- Externally visible actions of the engine: a successful `open`, a handle
release (`file.close`, including the close performed by the `with` block of
`unwatch`), and one consumer-callback invocation. -/
inductive Event where
  | opened : FPath → Handle → Event
  | closed : Handle → Event
  | delivered : FPath → List (List Char) → Event
deriving DecidableEq

/-- The `_files_map` dictionary: file identity keys to open handles.  Keys
are unique because the source uses a Python dict. -/
abbrev Table := List (FileId × Handle)

/-- Association lookup, standing for `os.stat(path)` / `open(path)`
observations of the disk; `none` is the ENOENT outcome. -/
def lookupA {β : Type} : List (FPath × β) → FPath → Option β
  | [], _ => none
  | q :: rest, p => if q.1 = p then some q.2 else lookupA rest p

/-- Python `del self._files_map[fid]` (keys are unique, so removing every
occurrence equals removing the single entry). -/
def eraseKey : Table → FileId → Table
  | [], _ => []
  | e :: rest, fid => if e.1 = fid then eraseKey rest fid else e :: eraseKey rest fid

/-- Python `self._files_map[fid] = file`: replace an existing key or append. -/
def insertKey (t : Table) (fid : FileId) (h : Handle) : Table :=
  if fid ∈ t.map Prod.fst then t.map fun e => if e.1 = fid then (fid, h) else e
  else t ++ [(fid, h)]

/-- `LogTailer.readLines` applied to one handle, as `loop` does per tick:
returns the handle with its advanced position and the delivery events. -/
def readEntry (hint : Nat) (h : Handle) : Handle × List Event :=
  (⟨h.name, h.content, (readLinesBatches h.content h.pos hint).2⟩,
   ((readLinesBatches h.content h.pos hint).1).map (Event.delivered h.name))

/-- `LogTailer.unwatch(file, fid)`: delete the entry from the table, then
drain the handle with a last `readLines` pass, then (leaving the `with`
block) close it. -/
def unwatch (hint : Nat) (t : Table) (fid : FileId) (h : Handle) : Table × List Event :=
  (eraseKey t fid,
   ((readLinesBatches h.content h.pos hint).1).map (Event.delivered h.name) ++ [Event.closed h])

/-- `LogTailer.watch(fname)`.  The two OS calls it makes - `open(fname)` and
`os.stat(fname)` - each observe the disk separately, so the function takes
the disk as seen by each call (`update_files` passes the same view twice; a
deletion race between the two calls is modelled by differing views).  An
ENOENT from either call is swallowed and nothing is recorded; note that when
`open` succeeded and `stat` fails, the opened handle is not recorded in the
table and the engine emits no close for it. -/
def watch (openDisk statDisk : Disk) (fname : FPath) (t : Table) : Table × List Event :=
  match lookupA openDisk.files fname with
  | none => (t, [])
  | some f =>
    match lookupA statDisk.files fname with
    | none => (t, [Event.opened fname ⟨fname, f.content, 0⟩])
    | some g =>
      (insertKey t (get_file_id g.stat) ⟨fname, f.content, 0⟩,
       [Event.opened fname ⟨fname, f.content, 0⟩])

/-- First pass of `update_files`: list the folder, stat every name, skip
non-regular files, and pair each remaining path with its identity. -/
def scanDisk (d : Disk) : List (FileId × FPath) :=
  d.files.filterMap fun q => if q.2.stat.isReg then some (get_file_id q.2.stat, q.1) else none

/-- Second pass of `update_files`, iterating over a snapshot of the table:
a vanished path retires its entry; a path whose recomputed identity differs
from the stored key is a rotation and is retired then re-watched. -/
def checkExisting (hint : Nat) (d : Disk) : List (FileId × Handle) → Table → Table × List Event
  | [], t => (t, [])
  | (fid, h) :: rest, t =>
    match lookupA d.files h.name with
    | none =>
      ((checkExisting hint d rest (unwatch hint t fid h).1).1,
       (unwatch hint t fid h).2 ++ (checkExisting hint d rest (unwatch hint t fid h).1).2)
    | some f =>
      if fid = get_file_id f.stat then
        checkExisting hint d rest t
      else
        ((checkExisting hint d rest (watch d d h.name (unwatch hint t fid h).1).1).1,
         (unwatch hint t fid h).2 ++ (watch d d h.name (unwatch hint t fid h).1).2 ++
           (checkExisting hint d rest (watch d d h.name (unwatch hint t fid h).1).1).2)

/-- Third pass of `update_files`: watch every scanned (identity, path) whose
identity is not already a table key. -/
def admitNew (d : Disk) : List (FileId × FPath) → Table → Table × List Event
  | [], t => (t, [])
  | (fid, p) :: rest, t =>
    if fid ∈ t.map Prod.fst then admitNew d rest t
    else
      ((admitNew d rest (watch d d p t).1).1,
       (watch d d p t).2 ++ (admitNew d rest (watch d d p t).1).2)

/-- `LogTailer.update_files`, run against one frozen view of the disk. -/
def updateFiles (hint : Nat) (d : Disk) (t : Table) : Table × List Event :=
  ((admitNew d (scanDisk d) (checkExisting hint d t t).1).1,
   (checkExisting hint d t t).2 ++ (admitNew d (scanDisk d) (checkExisting hint d t t).1).2)

/-- The read phase of one `loop` iteration: `readLines` on every live entry. -/
def tickRead (hint : Nat) : Table → Table × List Event
  | [] => ([], [])
  | (fid, h) :: rest =>
    ((fid, (readEntry hint h).1) :: (tickRead hint rest).1,
     (readEntry hint h).2 ++ (tickRead hint rest).2)

/-- One iteration of `LogTailer.loop`: `update_files` then `readLines` over
the (snapshot of the) resulting table. -/
def tick (hint : Nat) (d : Disk) (t : Table) : Table × List Event :=
  ((tickRead hint (updateFiles hint d t).1).1,
   (updateFiles hint d t).2 ++ (tickRead hint (updateFiles hint d t).1).2)

/-- The constructor's `file.seek(os.path.getsize(file.name))`: move the
cursor to the current size of the file the entry's path refers to. -/
def seekEnd (d : Disk) (h : Handle) : Handle :=
  match lookupA d.files h.name with
  | some f => ⟨h.name, h.content, f.content.length⟩
  | none => h

/-- The table-building part of `LogTailer.__init__`: `update_files` from an
empty table, then seek every admitted handle to end-of-file. -/
def initEngine (hint : Nat) (d : Disk) : Table × List Event :=
  (((updateFiles hint d []).1).map fun e => (e.1, seekEnd d e.2),
   (updateFiles hint d []).2)

/-- The bootstrap-tail part of `LogTailer.__init__`: when `tail_lines` is
nonzero, call `tail` for every admitted file (an ENOENT is skipped) and
invoke the callback only when the line list is nonempty. -/
def bootstrapTailEvents (d : Disk) (tailLines : Nat) (t : Table) : List Event :=
  if tailLines = 0 then []
  else
    t.filterMap fun e =>
      match lookupA d.files e.2.name with
      | none => none
      | some f =>
        if tailLinesFor f.content tailLines = [] then none
        else some (Event.delivered e.2.name (tailLinesFor f.content tailLines))

/-- `LogTailer.close`: close every handle in the table, then clear it. -/
def closeEngine (t : Table) : Table × List Event :=
  ([], t.map fun e => Event.closed e.2)

/-- Recognizer for close events. -/
def isClosedEv : Event → Bool
  | Event.closed _ => true
  | _ => false

/-! ### Properties of the backward block scan -/

theorem tailLoop_exit_now (content : List Char) (window blockAbs : Nat)
    (h1 : 1024 * (blockAbs - 1) ≤ content.length)
    (h2 : content.length ≤ 1024 * blockAbs) (h3 : 1 ≤ blockAbs) :
    tailLoop content window blockAbs
      (content.drop (content.length - 1024 * (blockAbs - 1))) = content := by
  rw [tailLoop.eq_def, if_pos h2]
  have harith : 1024 - (1024 * blockAbs - content.length) =
      content.length - 1024 * (blockAbs - 1) := by omega
  rw [harith, List.take_append_drop]

theorem tailLoop_exit (content : List Char) (window : Nat) :
    ∀ n blockAbs, content.length - 1024 * blockAbs ≤ n → 1 ≤ blockAbs →
      1024 * (blockAbs - 1) ≤ content.length →
      (tailLoop content window blockAbs
          (content.drop (content.length - 1024 * (blockAbs - 1))) = content ∨
        window ≤ countNL (tailLoop content window blockAbs
          (content.drop (content.length - 1024 * (blockAbs - 1))))) ∧
      tailLoop content window blockAbs
        (content.drop (content.length - 1024 * (blockAbs - 1))) <:+ content := by
  intro n
  induction n with
  | zero =>
    intro b hn hb1 hble
    have hexit : content.length ≤ 1024 * b := by omega
    rw [tailLoop_exit_now content window b hble hexit hb1]
    exact ⟨Or.inl rfl, List.suffix_refl _⟩
  | succ n ih =>
    intro b hn hb1 hble
    by_cases hexit : content.length ≤ 1024 * b
    · rw [tailLoop_exit_now content window b hble hexit hb1]
      exact ⟨Or.inl rfl, List.suffix_refl _⟩
    · push_neg at hexit
      have hdata : (content.drop (content.length - 1024 * b)).take 1024 ++
          content.drop (content.length - 1024 * (b - 1)) =
          content.drop (content.length - 1024 * b) := by
        have hidx : content.drop (content.length - 1024 * (b - 1)) =
            (content.drop (content.length - 1024 * b)).drop 1024 := by
          rw [List.drop_drop]
          congr 1
          omega
        rw [hidx, List.take_append_drop]
      rw [tailLoop.eq_def, if_neg (by omega), hdata]
      by_cases hc : window ≤ countNL (content.drop (content.length - 1024 * b))
      · rw [if_pos hc]
        exact ⟨Or.inr hc, List.drop_suffix _ _⟩
      · rw [if_neg hc]
        have := ih (b + 1) (by omega) (by omega) (by omega)
        simpa using this

/-- The scan loop always ends, and it ends either having accumulated the
whole file or holding at least `window` newline markers. -/
theorem tailData_exit (content : List Char) (window : Nat) :
    (tailData content window = content ∨ window ≤ countNL (tailData content window)) ∧
      tailData content window <:+ content := by
  have := tailLoop_exit content window content.length 1 (by omega) (le_refl 1) (by simp)
  simpa [tailData, List.drop_length] using this

/-- A file of at most one block is read in whole by the first iteration. -/
theorem tailData_small (content : List Char) (window : Nat) (h : content.length ≤ 1024) :
    tailData content window = content := by
  have := tailLoop_exit_now content window 1 (by simp) (by simpa using h) (le_refl 1)
  simpa [tailData, List.drop_length] using this

/-! ### Properties of the hex identity encoding -/

/-- Value of a lowercase hex digit character. -/
def digitVal (c : Char) : Nat := if 97 ≤ c.toNat then c.toNat - 87 else c.toNat - 48

/-- Reads a hex digit string back to the number it denotes. -/
def fromHex (l : List Char) : Nat := l.foldl (fun a c => 16 * a + digitVal c) 0

theorem digitVal_digitChar : ∀ d, d < 16 → digitVal (Nat.digitChar d) = d := by decide

theorem digitChar_ne_g : ∀ d, d < 16 → Nat.digitChar d ≠ 'g' := by decide

theorem toHexAux_append (fuel : Nat) :
    ∀ n acc, toHexAux fuel n acc = toHexAux fuel n [] ++ acc := by
  induction fuel with
  | zero => intro n acc; rfl
  | succ fuel ih =>
    intro n acc
    by_cases h : n < 16
    · simp [toHexAux, h]
    · simp only [toHexAux, if_neg h]
      rw [ih (n / 16) (Nat.digitChar (n % 16) :: acc), ih (n / 16) [Nat.digitChar (n % 16)]]
      simp

theorem fromHex_append_digit (l : List Char) (c : Char) :
    fromHex (l ++ [c]) = 16 * fromHex l + digitVal c := by
  simp [fromHex, List.foldl_append]

theorem fromHex_toHexAux : ∀ fuel n, n < fuel → fromHex (toHexAux fuel n []) = n := by
  intro fuel
  induction fuel with
  | zero => intro n h; omega
  | succ fuel ih =>
    intro n h
    by_cases h16 : n < 16
    · simp [toHexAux, h16, fromHex, digitVal_digitChar n h16]
    · simp only [toHexAux, if_neg h16]
      rw [toHexAux_append, fromHex_append_digit]
      have hdiv : n / 16 < fuel := by
        have : n / 16 < n := Nat.div_lt_self (by omega) (by omega)
        omega
      rw [ih (n / 16) hdiv, digitVal_digitChar (n % 16) (Nat.mod_lt n (by omega))]
      omega

theorem fromHex_toHex (n : Nat) : fromHex (toHex n) = n :=
  fromHex_toHexAux (n + 1) n (by omega)

theorem toHex_injective {m n : Nat} (h : toHex m = toHex n) : m = n := by
  have := congrArg fromHex h
  rwa [fromHex_toHex, fromHex_toHex] at this

theorem toHexAux_ne_g (fuel : Nat) :
    ∀ n acc, (∀ c ∈ acc, c ≠ 'g') → ∀ c ∈ toHexAux fuel n acc, c ≠ 'g' := by
  induction fuel with
  | zero => intro n acc hacc c hc; exact hacc c hc
  | succ fuel ih =>
    intro n acc hacc c hc
    by_cases h16 : n < 16
    · simp [toHexAux, h16] at hc
      rcases hc with hc | hc
      · subst hc; exact digitChar_ne_g n h16
      · exact hacc c hc
    · simp only [toHexAux, if_neg h16] at hc
      refine ih (n / 16) _ ?_ c hc
      intro x hx
      simp at hx
      rcases hx with hx | hx
      · subst hx; exact digitChar_ne_g (n % 16) (Nat.mod_lt n (by omega))
      · exact hacc x hx

theorem toHex_ne_g (n : Nat) : ∀ c ∈ toHex n, c ≠ 'g' :=
  toHexAux_ne_g (n + 1) n [] (by simp)

theorem append_g_inj : ∀ a c b d : List Char,
    (∀ x ∈ a, x ≠ 'g') → (∀ x ∈ c, x ≠ 'g') →
    a ++ 'g' :: b = c ++ 'g' :: d → a = c ∧ b = d := by
  intro a
  induction a with
  | nil =>
    intro c b d _ hc h
    cases c with
    | nil => simpa using h
    | cons y c2 =>
      simp at h
      exact absurd h.1.symm (hc y (by simp))
  | cons x a2 ih =>
    intro c b d ha hc h
    cases c with
    | nil =>
      simp at h
      exact absurd h.1 (ha x (by simp))
    | cons y c2 =>
      simp at h
      obtain ⟨h1, h2⟩ := h
      obtain ⟨hac, hbd⟩ := ih c2 b d (fun z hz => ha z (by simp [hz]))
        (fun z hz => hc z (by simp [hz])) h2
      exact ⟨by rw [h1, hac], hbd⟩

theorem splitlinesAux_no_nl (s : List Char) :
    ∀ cur, '\n' ∉ cur → ∀ l ∈ splitlinesAux s cur, '\n' ∉ l := by
  induction s with
  | nil =>
    intro cur hcur l hl
    by_cases h : cur = [] <;> simp [splitlinesAux, h] at hl
    subst hl
    simpa using hcur
  | cons c rest ih =>
    intro cur hcur l hl
    by_cases h : c = '\n'
    · subst h
      simp [splitlinesAux] at hl
      rcases hl with hl | hl
      · subst hl; simpa using hcur
      · exact ih [] (by simp) l hl
    · simp [splitlinesAux, h] at hl
      refine ih (c :: cur) ?_ l hl
      simp [hcur]
      exact fun hc => h hc.symm

theorem splitlines_no_nl (s : List Char) : ∀ l ∈ splitlines s, '\n' ∉ l :=
  splitlinesAux_no_nl s [] (by simp)

theorem pyLastSlice_subset {α : Type} (xs : List α) (w : Nat) :
    ∀ l ∈ pyLastSlice xs w, l ∈ xs := by
  intro l hl
  by_cases h : w = 0
  · simpa [pyLastSlice, h] using hl
  · rw [pyLastSlice, if_neg h] at hl
    exact List.mem_of_mem_drop hl

/-! ### Claims -/

/-- C1 (code bug witness): the spec promises `min(N, line count)` lines, so
zero lines for `N = 0`; but on a file containing one line `"a"` the call
`tail(path, encoding, 0)` returns that line, because the final Python slice
`data.splitlines()[-0:]` is the whole line list of the accumulated block
rather than an empty list. -/
theorem C1_tail_zero_window_returns_lines :
    pythonTail ['a', '\n'] 0 = Except.ok [['a']] ∧ ([['a']] : List (List Char)) ≠ [] := by
  constructor
  · have h1 : tailData ['a', '\n'] ((0 : Int).toNat) = ['a', '\n'] :=
      tailData_small _ _ (by simp)
    unfold pythonTail tailLinesFor
    rw [h1]
    rfl
  · simp

/-- C8 (confirmed): the backward scan of `tail` terminates for every file
and window (the model's `tailLoop` is total by a decreasing measure), and on
exit the accumulated buffer is a suffix of the file that either is the whole
file (start reached) or contains at least `window` newline markers. -/
theorem C8_tail_scan_exit_condition (content : List Char) (window : Nat) :
    tailData content window <:+ content ∧
      (tailData content window = content ∨ window ≤ countNL (tailData content window)) :=
  ⟨(tailData_exit content window).2, (tailData_exit content window).1⟩

/-- C9 (confirmed): a negative window makes `tail` fail with `ValueError`
immediately; the result does not depend on the file content at all, since the
check precedes the `open`. -/
theorem C9_negative_window_rejected (content : List Char) (window : Int)
    (h : window < 0) :
    pythonTail content window = Except.error "invalid window value" ∧
      pythonTail content window = pythonTail [] window := by
  constructor <;> simp [pythonTail, if_pos h]

theorem C9_negative_window_rejected_witness :
    pythonTail ['a'] (-1) = Except.error "invalid window value" ∧
      pythonTail ['a'] (-1) = pythonTail [] (-1) :=
  C9_negative_window_rejected ['a'] (-1) (by decide)

/-- C10 (confirmed): on posix, `get_file_id` produces equal identity strings
exactly for equal (device, inode) pairs: the separator `'g'` cannot occur in
a hex digit run, and `'%x'` hex formatting is injective. -/
theorem C10_file_id_injective (st1 st2 : Stat) :
    get_file_id st1 = get_file_id st2 ↔ st1.dev = st2.dev ∧ st1.ino = st2.ino := by
  constructor
  · intro h
    obtain ⟨h1, h2⟩ := append_g_inj (toHex st1.dev) (toHex st2.dev) (toHex st1.ino)
      (toHex st2.ino) (toHex_ne_g _) (toHex_ne_g _) h
    exact ⟨toHex_injective h1, toHex_injective h2⟩
  · intro hpair
    rw [get_file_id, get_file_id, hpair.1, hpair.2]

/-- C4 (counterexample): appending the bytes `"abc"` with no line boundary
and running one `readLines` pass delivers the fragment immediately as the
batch `[["abc"]]` - text-mode `readline` returns the unterminated trailing
fragment at end-of-file instead of buffering it. -/
theorem C4_partial_fragment_delivered_now :
    readLinesBatches ['a', 'b', 'c'] 0 1048576 = ([[['a', 'b', 'c']]], 3) := by
  have h1 : readlines ['a', 'b', 'c'] 0 1048576 = ([['a', 'b', 'c']], 3) := by decide
  have h2 : (readlines ['a', 'b', 'c'] 3 1048576).1 = [] := by decide
  rw [rlb_cons h1, rlb_nil h2]

/-- C4 (amended): an incremental read pass drains the handle to end-of-file,
delivering every unread character - including a trailing fragment that has no
line boundary yet; a line completed on a later tick is therefore delivered
split across two callback invocations. -/
theorem C4_reads_drain_to_eof (content : List Char) (pos hint : Nat) :
    concatAll (((readLinesBatches content pos hint).1).map concatAll) = content.drop pos ∧
      (readLinesBatches content pos hint).2 = max pos content.length :=
  ⟨rlb_drain content pos hint, rlb_final_pos content pos hint⟩

/-- C6 (counterexample): on the live incremental path the callback receives
the lines exactly as `readlines` produced them, so the single line read from
content `"a\n"` still ends in the LF marker - it is not stripped. -/
theorem C6_live_lines_keep_marker :
    (readlines ['a', '\n'] 0 1048576).1 = [['a', '\n']] ∧
      (['a', '\n'] : List Char).getLast? = some '\n' := by
  constructor <;> decide

/-- C6 (amended): only the bootstrap `tail` path strips the trailing line
boundary (its lines come from `splitlines`); the live incremental path
delivers the unread characters verbatim, terminators included, since the
delivered lines concatenate to a verbatim prefix of the unread region. -/
theorem C6_strip_only_on_tail_path :
    (∀ (content : List Char) (w : Int) (lines : List (List Char)),
        pythonTail content w = Except.ok lines → ∀ l ∈ lines, '\n' ∉ l) ∧
    (∀ (content : List Char) (pos hint : Nat),
        concatAll ((readlines content pos hint).1) =
          (content.drop pos).take (concatAll ((readlines content pos hint).1)).length) := by
  constructor
  · intro content w lines hok l hl
    by_cases hw : w < 0
    · rw [pythonTail, if_pos hw] at hok
      cases hok
    · rw [pythonTail, if_neg hw] at hok
      injection hok with hok
      subst hok
      rw [tailLinesFor] at hl
      exact splitlines_no_nl _ l (pyLastSlice_subset _ _ l hl)
  · intro content pos hint
    obtain ⟨r, hr⟩ := readlines_concat_prefix content pos hint
    exact List.prefix_iff_eq_take.mp ⟨r, hr⟩

theorem pythonTail_eval_an : pythonTail ['a', '\n'] 1 = Except.ok [['a']] := by
  have h1 : tailData ['a', '\n'] ((1 : Int).toNat) = ['a', '\n'] :=
    tailData_small _ _ (by simp)
  unfold pythonTail tailLinesFor
  rw [h1]
  rfl

theorem C6_strip_only_on_tail_path_witness :
    ('\n' ∉ (['a'] : List Char)) ∧
      concatAll ((readlines ['a', '\n'] 0 1024).1) =
        ((['a', '\n'] : List Char).drop 0).take
          (concatAll ((readlines ['a', '\n'] 0 1024).1)).length :=
  ⟨C6_strip_only_on_tail_path.1 ['a', '\n'] 1 [['a']] pythonTail_eval_an ['a'] (by simp),
   C6_strip_only_on_tail_path.2 ['a', '\n'] 0 1024⟩

theorem rlb_eval_bn : readLinesBatches ['b', '\n'] 0 1024 = ([[['b', '\n']]], 2) := by
  have h1 : readlines ['b', '\n'] 0 1024 = ([['b', '\n']], 2) := by decide
  have h2 : (readlines ['b', '\n'] 2 1024).1 = [] := by decide
  rw [rlb_cons h1, rlb_nil h2]

theorem btse_eval :
    bootstrapTailEvents (Disk.mk [("f", DiskFile.mk (Stat.mk 1 1 true) ['a', '\n'])]) 1
      [(['1', 'g', '1'], Handle.mk "f" ['a', '\n'] 2)] =
      [Event.delivered "f" [['a']]] := by
  have h1 : tailLinesFor ['a', '\n'] 1 = [['a']] := by
    rw [tailLinesFor, tailData_small _ _ (by simp)]
    decide
  simp [bootstrapTailEvents, lookupA, h1]

/-- C7 (confirmed): the consumer callback is never handed an empty line
sequence: `readLines` (the live path and the retirement drain) emits only
nonempty batches, and the bootstrap tail delivery is guarded by a
nonemptiness test. -/
theorem C7_callback_never_empty :
    (∀ (content : List Char) (pos hint : Nat) (b : List (List Char)),
        b ∈ (readLinesBatches content pos hint).1 → b ≠ []) ∧
    (∀ (d : Disk) (tl : Nat) (t : Table) (p : FPath) (lines : List (List Char)),
        Event.delivered p lines ∈ bootstrapTailEvents d tl t → lines ≠ []) := by
  constructor
  · intro content pos hint b hb
    exact rlb_batches_ne_nil_aux content hint content.length pos (by omega) b hb
  · intro d tl t p lines hmem
    by_cases htl : tl = 0
    · simp [bootstrapTailEvents, htl] at hmem
    · simp only [bootstrapTailEvents, if_neg htl] at hmem
      rw [List.mem_filterMap] at hmem
      obtain ⟨e, he, heq⟩ := hmem
      rcases hl : lookupA d.files e.2.name with _ | f
      · rw [hl] at heq
        cases heq
      · rw [hl] at heq
        by_cases hz : tailLinesFor f.content tl = []
        · simp [hz] at heq
        · simp only [if_neg hz] at heq
          injection heq with heq
          have hlines : tailLinesFor f.content tl = lines := by
            cases heq
            rfl
          rw [← hlines]
          exact hz

theorem C7_callback_never_empty_witness :
    (([['b', '\n']] : List (List Char)) ≠ []) ∧ (([['a']] : List (List Char)) ≠ []) :=
  ⟨C7_callback_never_empty.1 ['b', '\n'] 0 1024 [['b', '\n']] (by rw [rlb_eval_bn]; simp),
   C7_callback_never_empty.2 (Disk.mk [("f", DiskFile.mk (Stat.mk 1 1 true) ['a', '\n'])]) 1
     [(['1', 'g', '1'], Handle.mk "f" ['a', '\n'] 2)] "f" [['a']] (by rw [btse_eval]; simp)⟩

/-- C3 (counterexample): a file admitted by `watch` (the admission path the
Reconciler uses on a later tick, lines 185-194) gets a handle at position 0,
not at the file's end-of-file (here the file has length 2). -/
theorem C3_admitted_cursor_at_start :
    watch (Disk.mk [("f", DiskFile.mk (Stat.mk 1 1 true) ['a', 'b'])])
        (Disk.mk [("f", DiskFile.mk (Stat.mk 1 1 true) ['a', 'b'])]) "f" [] =
      ([(['1', 'g', '1'], Handle.mk "f" ['a', 'b'] 0)],
       [Event.opened "f" (Handle.mk "f" ['a', 'b'] 0)]) ∧
      (Handle.mk "f" ['a', 'b'] 0).pos ≠ (Handle.mk "f" ['a', 'b'] 0).content.length := by
  constructor <;> decide

theorem insertKey_mem {t : Table} {fid : FileId} {h : Handle} {e : FileId × Handle}
    (he : e ∈ insertKey t fid h) : e ∈ t ∨ e = (fid, h) := by
  unfold insertKey at he
  by_cases hmem : fid ∈ t.map Prod.fst
  · rw [if_pos hmem, List.mem_map] at he
    obtain ⟨x, hx, hxe⟩ := he
    by_cases hx1 : x.1 = fid
    · right
      rw [← hxe, if_pos hx1]
    · left
      rw [← hxe, if_neg hx1]
      exact hx
  · rw [if_neg hmem] at he
    simp at he
    rcases he with he | he
    · left; exact he
    · right; exact he

theorem watch_entries {dO dS : Disk} {p : FPath} {t : Table} {e : FileId × Handle}
    (he : e ∈ (watch dO dS p t).1) :
    e ∈ t ∨ ∃ f g, lookupA dO.files p = some f ∧ lookupA dS.files p = some g ∧
      e = (get_file_id g.stat, Handle.mk p f.content 0) := by
  unfold watch at he
  rcases hO : lookupA dO.files p with _ | f
  · rw [hO] at he
    exact Or.inl he
  · rw [hO] at he
    rcases hS : lookupA dS.files p with _ | g
    · rw [hS] at he
      exact Or.inl he
    · rw [hS] at he
      rcases insertKey_mem he with hmem | hmem
      · exact Or.inl hmem
      · exact Or.inr ⟨f, g, rfl, rfl, hmem⟩

theorem admitNew_entries (d : Disk) :
    ∀ (l : List (FileId × FPath)) (t : Table) (e : FileId × Handle),
      e ∈ (admitNew d l t).1 →
      e ∈ t ∨ ∃ q f, lookupA d.files q = some f ∧
        e = (get_file_id f.stat, Handle.mk q f.content 0) := by
  intro l
  induction l with
  | nil => intro t e he; exact Or.inl he
  | cons x rest ih =>
    intro t e he
    rcases x with ⟨fid, q⟩
    by_cases hmem : fid ∈ t.map Prod.fst
    · simp only [admitNew, if_pos hmem] at he
      exact ih t e he
    · simp only [admitNew, if_neg hmem] at he
      rcases ih (watch d d q t).1 e he with hw | hfresh
      · rcases watch_entries hw with hin | ⟨f, g, hf, hg, hefg⟩
        · exact Or.inl hin
        · rw [hf] at hg
          injection hg with hg
          subst hg
          exact Or.inr ⟨q, f, hf, hefg⟩
      · exact Or.inr hfresh

/-- C3 (amended): handles admitted at engine construction are seeked to the
file's current end, but handles admitted by `watch` on a later tick (and the
fresh handle after a rotation) start at position 0 and therefore replay the
file's whole current content. -/
theorem C3_cursor_eof_only_at_construction :
    (∀ (hint : Nat) (d : Disk) (e : FileId × Handle),
        e ∈ (initEngine hint d).1 → e.2.pos = e.2.content.length) ∧
    (∀ (dO dS : Disk) (p : FPath) (t : Table) (f g : DiskFile),
        lookupA dO.files p = some f → lookupA dS.files p = some g →
        watch dO dS p t =
          (insertKey t (get_file_id g.stat) (Handle.mk p f.content 0),
           [Event.opened p (Handle.mk p f.content 0)])) := by
  constructor
  · intro hint d e he
    simp only [initEngine, List.mem_map] at he
    obtain ⟨e0, he0, hee⟩ := he
    have hsingle : (updateFiles hint d []).1 = (admitNew d (scanDisk d) []).1 := by
      simp [updateFiles, checkExisting]
    rw [hsingle] at he0
    rcases admitNew_entries d (scanDisk d) [] e0 he0 with habs | ⟨q, f, hq, he0f⟩
    · simp at habs
    · subst he0f
      rw [← hee]
      simp [seekEnd, hq]
  · intro dO dS p t f g hf hg
    unfold watch
    rw [hf, hg]

theorem C3_cursor_eof_only_at_construction_witness :
    ((['1', 'g', '1'], Handle.mk "f" ['a'] 1) : FileId × Handle).2.pos =
      ((['1', 'g', '1'], Handle.mk "f" ['a'] 1) : FileId × Handle).2.content.length ∧
    watch (Disk.mk [("g", DiskFile.mk (Stat.mk 2 3 true) ['x'])])
        (Disk.mk [("g", DiskFile.mk (Stat.mk 2 3 true) ['x'])]) "g" [] =
      (insertKey [] (get_file_id (Stat.mk 2 3 true)) (Handle.mk "g" ['x'] 0),
       [Event.opened "g" (Handle.mk "g" ['x'] 0)]) :=
  ⟨C3_cursor_eof_only_at_construction.1 1024
      (Disk.mk [("f", DiskFile.mk (Stat.mk 1 1 true) ['a'])])
      (['1', 'g', '1'], Handle.mk "f" ['a'] 1) (by decide),
   C3_cursor_eof_only_at_construction.2
      (Disk.mk [("g", DiskFile.mk (Stat.mk 2 3 true) ['x'])])
      (Disk.mk [("g", DiskFile.mk (Stat.mk 2 3 true) ['x'])]) "g" []
      (DiskFile.mk (Stat.mk 2 3 true) ['x']) (DiskFile.mk (Stat.mk 2 3 true) ['x'])
      (by decide) (by decide)⟩

/-- C5 (counterexample): when the file vanishes between the `open` and the
`os.stat` inside `watch` (an ENOENT race the source swallows), the opened
handle is neither recorded in the table nor closed by the engine: the trace
shows the open with no matching close, and stopping the engine afterwards
closes nothing because the table is empty. -/
theorem C5_admission_race_leaks_handle :
    watch (Disk.mk [("f", DiskFile.mk (Stat.mk 1 1 true) ['a'])]) (Disk.mk []) "f" [] =
      ([], [Event.opened "f" (Handle.mk "f" ['a'] 0)]) ∧
      (closeEngine (watch (Disk.mk [("f", DiskFile.mk (Stat.mk 1 1 true) ['a'])])
          (Disk.mk []) "f" []).1).2 = [] := by
  constructor <;> decide

theorem filter_closed_delivered (nm : FPath) (bs : List (List (List Char))) :
    (bs.map (Event.delivered nm)).filter isClosedEv = [] := by
  induction bs with
  | nil => rfl
  | cons b bs ih => simpa [isClosedEv] using ih

theorem eraseKey_not_mem (t : Table) (fid : FileId) :
    fid ∉ (eraseKey t fid).map Prod.fst := by
  induction t with
  | nil => simp [eraseKey]
  | cons e rest ih =>
    by_cases h : e.1 = fid
    · rw [eraseKey, if_pos h]
      exact ih
    · rw [eraseKey, if_neg h]
      simp only [List.map_cons, List.mem_cons]
      push_neg
      exact ⟨fun hc => h hc.symm, ih⟩

/-- C5 (amended): the engine itself closes exactly once every handle it
retires through `unwatch` (whose entry also leaves the table, so `close`
cannot close it again) and every handle still in the table when `close` runs
(which empties the table, making a second `close` a no-op); but a handle
opened during admission whose `stat` fails is simply dropped without an
engine-issued close (its release is left to the runtime). -/
theorem C5_engine_release_discipline :
    (∀ (hint : Nat) (t : Table) (fid : FileId) (h : Handle),
        ((unwatch hint t fid h).2).filter isClosedEv = [Event.closed h] ∧
        fid ∉ ((unwatch hint t fid h).1).map Prod.fst) ∧
    (∀ t : Table,
        closeEngine t = ([], t.map fun e => Event.closed e.2) ∧
        (closeEngine (closeEngine t).1).2 = []) := by
  constructor
  · intro hint t fid h
    constructor
    · rw [unwatch]
      rw [List.filter_append, filter_closed_delivered]
      rfl
    · exact eraseKey_not_mem t fid
  · intro t
    exact ⟨rfl, rfl⟩

/-- C2 (confirmed): if the single watched path's recomputed identity differs
from the stored key (a rotation), one tick performs exactly one
retire-then-readmit cycle: the old handle is drained from its cursor and its
entry removed, the close happens after the drain, a single fresh handle is
opened for the same path under the new identity, and the tick then reads the
fresh handle from position 0 to end-of-file.  The drained old deliveries
concatenate to exactly the undelivered suffix of the old file (nothing
repeated, nothing lost), and the new-file deliveries concatenate to the whole
new content (no post-rotation line lost). -/
theorem C2_rotation_single_cycle (hint : Nat) (p : FPath) (f : DiskFile) (fid : FileId)
    (h : Handle) (hreg : f.stat.isReg = true) (hname : h.name = p)
    (hrot : fid ≠ get_file_id f.stat) :
    tick hint (Disk.mk [(p, f)]) [(fid, h)] =
      ([(get_file_id f.stat, Handle.mk p f.content f.content.length)],
        ((readLinesBatches h.content h.pos hint).1).map (Event.delivered p) ++
          [Event.closed h, Event.opened p (Handle.mk p f.content 0)] ++
          ((readLinesBatches f.content 0 hint).1).map (Event.delivered p)) ∧
      concatAll (((readLinesBatches h.content h.pos hint).1).map concatAll) =
        h.content.drop h.pos ∧
      concatAll (((readLinesBatches f.content 0 hint).1).map concatAll) = f.content := by
  refine ⟨?_, rlb_drain h.content h.pos hint, by simpa using rlb_drain f.content 0 hint⟩
  have hlook : lookupA (Disk.mk [(p, f)]).files p = some f := by simp [lookupA]
  have huw1 : (unwatch hint [(fid, h)] fid h).1 = [] := by
    simp [unwatch, eraseKey]
  have huw2 : (unwatch hint [(fid, h)] fid h).2 =
      ((readLinesBatches h.content h.pos hint).1).map (Event.delivered p) ++
        [Event.closed h] := by
    rw [unwatch, hname]
  have hw : watch (Disk.mk [(p, f)]) (Disk.mk [(p, f)]) p [] =
      ([(get_file_id f.stat, Handle.mk p f.content 0)],
       [Event.opened p (Handle.mk p f.content 0)]) := by
    unfold watch
    rw [hlook]
    simp [insertKey]
  have hce : checkExisting hint (Disk.mk [(p, f)]) [(fid, h)] [(fid, h)] =
      ([(get_file_id f.stat, Handle.mk p f.content 0)],
       ((readLinesBatches h.content h.pos hint).1).map (Event.delivered p) ++
         [Event.closed h] ++ [Event.opened p (Handle.mk p f.content 0)]) := by
    simp only [checkExisting, hname, hlook]
    rw [if_neg hrot]
    rw [huw1, hw]
    simp [checkExisting, huw2]
  have hscan : scanDisk (Disk.mk [(p, f)]) = [(get_file_id f.stat, p)] := by
    simp [scanDisk, hreg]
  have hadmit : admitNew (Disk.mk [(p, f)]) [(get_file_id f.stat, p)]
      [(get_file_id f.stat, Handle.mk p f.content 0)] =
      ([(get_file_id f.stat, Handle.mk p f.content 0)], []) := by
    simp [admitNew]
  have hupd : updateFiles hint (Disk.mk [(p, f)]) [(fid, h)] =
      ([(get_file_id f.stat, Handle.mk p f.content 0)],
       ((readLinesBatches h.content h.pos hint).1).map (Event.delivered p) ++
         [Event.closed h] ++ [Event.opened p (Handle.mk p f.content 0)]) := by
    rw [updateFiles, hce, hscan, hadmit]
    simp
  have hre : readEntry hint (Handle.mk p f.content 0) =
      (Handle.mk p f.content f.content.length,
       ((readLinesBatches f.content 0 hint).1).map (Event.delivered p)) := by
    rw [readEntry]
    have hmax : (readLinesBatches f.content 0 hint).2 = f.content.length := by
      rw [rlb_final_pos]
      omega
    rw [hmax]
  have hread : tickRead hint [(get_file_id f.stat, Handle.mk p f.content 0)] =
      ([(get_file_id f.stat, Handle.mk p f.content f.content.length)],
       ((readLinesBatches f.content 0 hint).1).map (Event.delivered p)) := by
    simp only [tickRead, hre]
    simp
  rw [tick, hupd, hread]
  simp

theorem C2_rotation_single_cycle_witness :
    tick 1024 (Disk.mk [("f", DiskFile.mk (Stat.mk 1 2 true) ['n', '\n'])])
        [(['9'], Handle.mk "f" ['o', '\n'] 2)] =
      ([(get_file_id (Stat.mk 1 2 true),
          Handle.mk "f" ['n', '\n'] (['n', '\n'] : List Char).length)],
        ((readLinesBatches ['o', '\n'] 2 1024).1).map (Event.delivered "f") ++
          [Event.closed (Handle.mk "f" ['o', '\n'] 2),
           Event.opened "f" (Handle.mk "f" ['n', '\n'] 0)] ++
          ((readLinesBatches ['n', '\n'] 0 1024).1).map (Event.delivered "f")) ∧
      concatAll (((readLinesBatches ['o', '\n'] 2 1024).1).map concatAll) =
        (['o', '\n'] : List Char).drop 2 ∧
      concatAll (((readLinesBatches ['n', '\n'] 0 1024).1).map concatAll) = ['n', '\n'] :=
  C2_rotation_single_cycle 1024 "f" (DiskFile.mk (Stat.mk 1 2 true) ['n', '\n']) ['9']
    (Handle.mk "f" ['o', '\n'] 2) rfl rfl (by decide)
